import Mathlib

/-!
Shallow embedding of group_tsan_races.py: a single-pass parser that extracts
race-report blocks from a detector log, derives a grouping key from the first
non-primitive stack frame, and aggregates occurrences per key.

Strings are modelled through their character lists; Python string primitives
(whitespace split, split on a separator, basename, int conversion) are given
explicit executable definitions.  Fallible code returns Except.
-/

namespace GroupTsanRaces

/-- Python whitespace characters relevant to str.split with no arguments
(ASCII subset; input lines here are ASCII). -/
def isPySpace (c : Char) : Bool :=
  c = ' ' || c = '\t' || c = '\n' || c = '\r' || c = '\x0b' || c = '\x0c'

/-- Helper for wsSplit: acc holds the current token, reversed. -/
def wsSplitAux : List Char → List Char → List String
  | [], [] => []
  | [], acc => [String.mk acc.reverse]
  | c :: cs, acc =>
    if isPySpace c then
      match acc with
      | [] => wsSplitAux cs []
      | _ => String.mk acc.reverse :: wsSplitAux cs []
    else wsSplitAux cs (c :: acc)

/-- Models Python str.split() with no arguments: split on runs of whitespace,
discarding leading and trailing whitespace and empty tokens. -/
def wsSplit (s : String) : List String :=
  wsSplitAux s.toList []

/-- Helper for splitColon: acc holds the current piece, reversed. -/
def splitColonAux : List Char → List Char → List String
  | [], acc => [String.mk acc.reverse]
  | c :: cs, acc =>
    if c = ':' then String.mk acc.reverse :: splitColonAux cs []
    else splitColonAux cs (c :: acc)

/-- Models Python str.split with separator given, loc.split of a colon:
every separator occurrence splits, empty pieces are kept. -/
def splitColon (s : String) : List String :=
  splitColonAux s.toList []

/-- Does the second list start with the first one?  Used to model Python
str.startswith and the anchored primitive-name regex match. -/
def leadMatch : List Char → List Char → Bool
  | [], _ => true
  | _ :: _, [] => false
  | p :: ps, c :: cs => p = c && leadMatch ps cs

/-- Models Python s.startswith(p). -/
def pyStartsWith (s p : String) : Bool :=
  leadMatch p.toList s.toList

/-- Models os.path.basename: the part of the path after the last slash. -/
def basename (s : String) : String :=
  String.mk ((s.toList.reverse.takeWhile (fun c => c ≠ '/')).reverse)

/-- Digit run of a Python int literal after the first digit: digits with
single underscores allowed between digits.  acc is the value so far. -/
def pyDigitsAux : List Char → Nat → Option Nat
  | [], acc => some acc
  | '_' :: c :: cs, acc =>
    if c.isDigit then pyDigitsAux cs (acc * 10 + (c.toNat - 48)) else none
  | ['_'], _ => none
  | c :: cs, acc =>
    if c.isDigit then pyDigitsAux cs (acc * 10 + (c.toNat - 48)) else none

/-- Nonempty digit sequence, first character must be a digit. -/
def pyDigits : List Char → Option Nat
  | [] => none
  | c :: cs => if c.isDigit then pyDigitsAux cs (c.toNat - 48) else none

/-- Models Python int(s) for base-10 string input: optional surrounding
whitespace, optional sign, then digits (underscores allowed between digits).
Returns none where Python raises ValueError. -/
def pyInt (s : String) : Option Int :=
  let cs := ((s.toList.dropWhile isPySpace).reverse.dropWhile isPySpace).reverse
  match cs with
  | '+' :: rest => (pyDigits rest).map (fun n => (n : Int))
  | '-' :: rest => (pyDigits rest).map (fun n => -(n : Int))
  | rest => (pyDigits rest).map (fun n => (n : Int))

/-- The separator literal from the source: a line of 18 equals signs. -/
def SEPARATOR : String := "=================="

/-- Models PRIMITIVE_RE.match(func) is not None: the regex is the single
anchored alternative _Py_atomic, so this is a name-start match. -/
def primitiveMatch (f : String) : Bool :=
  pyStartsWith f "_Py_atomic"

/-- The Location named tuple from the source: grouping key of a race. -/
structure Location where
  func : String
  path : String
  lineno : Int
deriving DecidableEq, Repr

/-- Models lines 36-42 of the source: split the location token on colon;
with exactly three parts take path and lineno from them, otherwise the whole
token is the path and lineno is the string 0; basename the path and convert
lineno with int (error where Python raises ValueError). -/
def mkLocation (func loc : String) : Except String Location :=
  let pl : String × String :=
    match splitColon loc with
    | [p, l, _] => (p, l)
    | _ => (loc, "0")
  match pyInt pl.2 with
  | some n => .ok ⟨func, basename pl.1, n⟩
  | none => .error "invalid literal for int"

/-- Models get_key (lines 31-43): scan the block lines in order; at each line
starting with four spaces and a hash, split on whitespace; fewer than four
tokens is a fatal unpacking error; a primitive-named frame is skipped; the
first other frame produces the Location; no qualifying line gives none. -/
def get_key : List String → Except String (Option Location)
  | [] => .ok none
  | line :: rest =>
    if pyStartsWith line "    #" then
      match wsSplit line with
      | _ :: func :: loc :: _ :: _ =>
        if primitiveMatch func then get_key rest
        else
          match mkLocation func loc with
          | .ok l => .ok (some l)
          | .error e => .error e
      | _ => .error "not enough values to unpack"
    else get_key rest

/-- ASCII digit test, models the regex class backslash-d on this input. -/
def isDigitChar (c : Char) : Bool := c.isDigit

/-- The regex class of lowercase, uppercase and digit characters. -/
def isAlnumChar (c : Char) : Bool :=
  c.isDigit || (('a' ≤ c && c ≤ 'z') || ('A' ≤ c && c ≤ 'Z'))

/-- Tokens of the small anchored regex engine used to model TEST_STATUS_RE.
lit is a literal character, cls a one-character class, opt an optional
literal (greedy), plus a greedy one-or-more character class, cap the final
capturing group: a literal part followed by a greedy one-or-more class,
returning the captured text. -/
inductive Tok where
  | lit (c : Char)
  | cls (f : Char → Bool)
  | opt (c : Char)
  | plus (f : Char → Bool)
  | cap (pre : List Char) (f : Char → Bool)

/-- Strip an exact literal run from the front of the input. -/
def dropLead : List Char → List Char → Option (List Char)
  | [], cs => some cs
  | _ :: _, [] => none
  | p :: ps, c :: cs => if c = p then dropLead ps cs else none

/-- Match the final capturing group: the literal part, then a nonempty
greedy class run; the captured text is returned. -/
def capMatch (pre : List Char) (f : Char → Bool) (cs : List Char) : Option String :=
  match dropLead pre cs with
  | none => none
  | some rest =>
    match rest.takeWhile f with
    | [] => none
    | run => some (String.mk (pre ++ run))

/-- Greedy one-or-more loop with backtracking: one class character is already
consumed; extend the run as far as possible, retreating one character at a
time when the continuation fails. -/
def plusLoop (next : List Char → Option String) (f : Char → Bool) : List Char → Option String
  | [] => next []
  | c :: cs =>
    if f c then
      match plusLoop next f cs with
      | some r => some r
      | none => next (c :: cs)
    else next (c :: cs)

/-- Anchored backtracking matcher for a token list, mirroring how the Python
regex engine matches TEST_STATUS_RE at the start of a line: greedy
quantifiers that retreat when the rest of the pattern fails.  Returns the
text of the capturing group on success. -/
def matchToks : List Tok → List Char → Option String
  | [], _ => none
  | t :: ts, cs =>
    match t with
    | .cap pre f => capMatch pre f cs
    | .lit c =>
      match cs with
      | c' :: cs' => if c' = c then matchToks ts cs' else none
      | [] => none
    | .cls f =>
      match cs with
      | c' :: cs' => if f c' then matchToks ts cs' else none
      | [] => none
    | .opt c =>
      match cs with
      | c' :: cs' =>
        if c' = c then
          match matchToks ts cs' with
          | some r => some r
          | none => matchToks ts (c' :: cs')
        else matchToks ts (c' :: cs')
      | [] => matchToks ts []
    | .plus f =>
      match cs with
      | c :: cs' => if f c then plusLoop (matchToks ts) f cs' else none
      | [] => none

/-- Literal tokens of a string. -/
def litToks (s : String) : List Tok :=
  s.toList.map Tok.lit

/-- Token form of TEST_STATUS_RE from line 19 of the source: digits, colon,
digits, colon, digits, the literal load-avg text, digits, any character
(the unescaped dot), digits, space, opening bracket, optional space, digits,
slash, digits, closing bracket, space, then the captured test name: the
literal test marker followed by one or more alphanumeric characters. -/
def testStatusToks : List Tok :=
  [.plus isDigitChar, .lit ':', .plus isDigitChar, .lit ':', .plus isDigitChar] ++
  litToks " load avg: " ++
  [.plus isDigitChar, .cls (fun c => c ≠ '\n'), .plus isDigitChar,
   .lit ' ', .lit '[', .opt ' ',
   .plus isDigitChar, .lit '/', .plus isDigitChar, .lit ']', .lit ' ',
   .cap "test_".toList isAlnumChar]

/-- Models TEST_STATUS_RE.match(line), returning group 1 on success. -/
def testStatusMatch (line : String) : Option String :=
  matchToks testStatusToks line.toList

/-- Models the newline join of the buffered block lines (line 110). -/
def joinNL : List String → String
  | [] => ""
  | [s] => s
  | s :: rest => s ++ "\n" ++ joinNL rest

/-- The Race class from lines 46-50.  The Python tests attribute is a set;
it is modelled as an insertion-ordered duplicate-free list.  loc is the key
the record was created with, which may be the absent key None. -/
structure Race where
  tests : List String
  loc : Option Location
  examples : List String
deriving DecidableEq, Repr

/-- Models set.add: append the element unless already present. -/
def addTest (ts : List String) (t : String) : List String :=
  if t ∈ ts then ts else ts ++ [t]

/-- The races dict is modelled as an insertion-ordered association list;
this is dict lookup races.get(loc, None). -/
def findRace : List (Option Location × Race) → Option Location → Option Race
  | [], _ => none
  | kv :: rest, k => if kv.1 = k then some kv.2 else findRace rest k

/-- Dict store races[loc] = race: replace the value of an existing key in
place, or append a new key at the end (Python dicts keep insertion order). -/
def upsert : List (Option Location × Race) → Option Location → Race →
    List (Option Location × Race)
  | [], k, r => [(k, r)]
  | kv :: rest, k, r => if kv.1 = k then (k, r) :: rest else kv :: upsert rest k r

/-- One emitted race occurrence: the derived key, the joined block text and
the test that was current when the block closed. -/
structure Event where
  key : Option Location
  text : String
  test : Option String
deriving DecidableEq, Repr

/-- Effect of one event on the record stored under its key, mirroring lines
106-112: take the existing record or a fresh Race(loc), append the example
text, and add the current test name when one is set. -/
def applyEvent (r0 : Option Race) (e : Event) : Race :=
  let race : Race :=
    match r0 with
    | some r => r
    | none => ⟨[], e.key, []⟩
  let race := { race with examples := race.examples ++ [e.text] }
  match e.test with
  | some t => { race with tests := addTest race.tests t }
  | none => race

/-- Apply one event to the races mapping. -/
def ingest (m : List (Option Location × Race)) (e : Event) :
    List (Option Location × Race) :=
  upsert m e.key (applyEvent (findRace m e.key) e)

/-- Apply a sequence of events in order. -/
def aggregate (m : List (Option Location × Race)) (evs : List Event) :
    List (Option Location × Race) :=
  evs.foldl ingest m

/-- Parser-only state of the loop in main: the buffered block lines, the
inside-block flag and the current test name. -/
structure ScanSt where
  lines : List String
  in_race : Bool
  cur_test : Option String
deriving DecidableEq, Repr

/-- Initial parser state from lines 98-100. -/
def initScan : ScanSt := ⟨[], false, none⟩

/-- One line of the loop body of main (lines 101-122), parser part only:
returns the next state and the event emitted when a block closes.  Inside a
block, the separator closes the block (key derivation may fail fatally) and
any other line is buffered; outside, a test-status match updates the current
test, a separator opens a block, and any other line is ignored. -/
def scanStep (s : ScanSt) (line : String) : Except String (ScanSt × Option Event) :=
  if s.in_race then
    if line = SEPARATOR then
      match get_key s.lines with
      | .ok loc => .ok (⟨[], false, s.cur_test⟩, some ⟨loc, joinNL s.lines, s.cur_test⟩)
      | .error e => .error e
    else .ok ({ s with lines := s.lines ++ [line] }, none)
  else
    match testStatusMatch line with
    | some t => .ok ({ s with cur_test := some t }, none)
    | none =>
      if line = SEPARATOR then .ok ({ s with in_race := true }, none)
      else .ok (s, none)

/-- Run the parser over a list of lines, collecting the emitted events. -/
def scanLines : ScanSt → List String → Except String (ScanSt × List Event)
  | s, [] => .ok (s, [])
  | s, l :: ls =>
    match scanStep s l with
    | .error e => .error e
    | .ok (s', ev?) =>
      match scanLines s' ls with
      | .error e => .error e
      | .ok (s'', evs) => .ok (s'', ev?.toList ++ evs)

/-- Full state of main: parser state plus the races mapping. -/
structure PState where
  lines : List String
  in_race : Bool
  cur_test : Option String
  races : List (Option Location × Race)
deriving DecidableEq, Repr

/-- Initial state of main: races = empty dict (line 92), empty buffer, not
inside a block, no current test (lines 98-100). -/
def initState : PState := ⟨[], false, none, []⟩

/-- The loop body of main (lines 101-122), mirroring the source directly:
inside a block a separator line derives the key from the buffer, fetches or
creates the record, appends the joined text as an example, adds the current
test when set, stores the record and resets the buffer; any other line is
buffered.  Outside a block a test-status match sets the current test, a
separator opens a block, anything else is ignored. -/
def step (s : PState) (line : String) : Except String PState :=
  if s.in_race then
    if line = SEPARATOR then
      match get_key s.lines with
      | .ok loc =>
        let race : Race :=
          match findRace s.races loc with
          | some r => r
          | none => ⟨[], loc, []⟩
        let race := { race with examples := race.examples ++ [joinNL s.lines] }
        let race :=
          match s.cur_test with
          | some t => { race with tests := addTest race.tests t }
          | none => race
        .ok ⟨[], false, s.cur_test, upsert s.races loc race⟩
      | .error e => .error e
    else .ok { s with lines := s.lines ++ [line] }
  else
    match testStatusMatch line with
    | some t => .ok { s with cur_test := some t }
    | none =>
      if line = SEPARATOR then .ok { s with in_race := true }
      else .ok s

/-- Run the loop of main over all input lines. -/
def processLines : PState → List String → Except String PState
  | s, [] => .ok s
  | s, l :: ls =>
    match step s l with
    | .error e => .error e
    | .ok s' => processLines s' ls

/-- The final races mapping of a run of main on the given input lines;
error means the run died with an uncaught exception and produced nothing. -/
def racesOf (input : List String) : Except String (List (Option Location × Race)) :=
  (processLines initState input).map PState.races

/-- Example count of a mapping entry, the sort key of line 76. -/
def raceCount (kv : Option Location × Race) : Nat :=
  kv.2.examples.length

/-- Stable insertion keeping example counts descending: a new entry goes
after every entry with an equal or larger count. -/
def insertDesc (x : Option Location × Race) :
    List (Option Location × Race) → List (Option Location × Race)
  | [] => [x]
  | y :: ys => if raceCount y < raceCount x then x :: y :: ys else y :: insertDesc x ys

/-- Models line 76 of render_races: the order in which records are emitted,
sorted(races.items(), reverse=True, key=len(examples)).  Python sorting is
stable, and a stable descending sort by one key has a unique result, here
produced by stable insertion; the HTML markup around it is out of scope. -/
def render_races (m : List (Option Location × Race)) : List (Option Location × Race) :=
  m.foldl (fun acc kv => insertDesc kv acc) []

/-- A full run of main: parse and aggregate all lines, then hand the sorted
records to the renderer.  On a fatal parse error nothing is rendered. -/
def runMain (input : List String) : Except String (List (Option Location × Race)) :=
  (processLines initState input).map (fun s => render_races s.races)

/-- Observer for stating claims: the function-name field of a line, its
second whitespace-separated field. -/
def funcField (line : String) : Option String :=
  (wsSplit line).get? 1

/-- Observer for stating claims: a line qualifies as the key-determining
stack frame when it starts with four spaces and a hash and its function-name
field, when present, does not start with a primitive name. -/
def qualifies (line : String) : Bool :=
  pyStartsWith line "    #" &&
    !(match funcField line with
      | some f => primitiveMatch f
      | none => false)

/-- Observer for stating claims: the Location a single stack-frame line
yields, none when the line is not a well-formed frame line. -/
def lineLocation (line : String) : Option Location :=
  match wsSplit line with
  | _ :: func :: loc :: _ :: _ =>
    match mkLocation func loc with
    | .ok l => some l
    | .error _ => none
  | _ => none

/-- The keys of the races mapping, in insertion order. -/
def raceKeys (m : List (Option Location × Race)) : List (Option Location) :=
  m.map Prod.fst

/-! Lemmas about the association-list mapping. -/

theorem findRace_upsert (m : List (Option Location × Race)) (k : Option Location)
    (r : Race) (K : Option Location) :
    findRace (upsert m k r) K = if K = k then some r else findRace m K := by
  induction m with
  | nil =>
    by_cases h : K = k
    · subst h; simp [upsert, findRace]
    · simp only [upsert, findRace, if_neg h]
      rw [if_neg (fun hc => h hc.symm)]
  | cons kv rest ih =>
    by_cases hk : kv.1 = k
    · subst hk
      simp only [upsert, if_pos rfl, findRace]
      by_cases h : K = kv.1
      · subst h; simp
      · rw [if_neg (fun hc => h hc.symm), if_neg h, if_neg (fun hc => h hc.symm)]
    · simp only [upsert, if_neg hk, findRace, ih]
      by_cases hKv : kv.1 = K
      · subst hKv
        rw [if_pos rfl, if_neg (fun hc => hk hc), if_pos rfl]
      · rw [if_neg hKv]
        by_cases hK : K = k
        · rw [if_pos hK, if_pos hK]
        · rw [if_neg hK, if_neg hK, if_neg hKv]

theorem findRace_eq_none_iff (m : List (Option Location × Race)) (k : Option Location) :
    findRace m k = none ↔ k ∉ raceKeys m := by
  induction m with
  | nil => simp [findRace, raceKeys]
  | cons kv rest ih =>
    simp only [findRace, raceKeys, List.map_cons, List.mem_cons]
    by_cases h : kv.1 = k
    · subst h; simp
    · have hne : ¬ k = kv.1 := fun hc => h hc.symm
      simp only [raceKeys] at ih
      simp [h, ih, hne]

theorem raceKeys_upsert (m : List (Option Location × Race)) (k : Option Location) (r : Race) :
    raceKeys (upsert m k r) =
      if k ∈ raceKeys m then raceKeys m else raceKeys m ++ [k] := by
  induction m with
  | nil => simp [upsert, raceKeys]
  | cons kv rest ih =>
    by_cases h : kv.1 = k
    · subst h
      simp [upsert, raceKeys]
    · have hne : ¬ k = kv.1 := fun hc => h hc.symm
      simp only [upsert, if_neg h, raceKeys, List.map_cons, List.mem_cons] at ih ⊢
      by_cases hm : k ∈ rest.map Prod.fst
      · simp [hm, ih, hne]
      · simp [hm, ih, hne]

theorem raceKeys_nodup_upsert (m : List (Option Location × Race)) (k : Option Location)
    (r : Race) (h : (raceKeys m).Nodup) : (raceKeys (upsert m k r)).Nodup := by
  rw [raceKeys_upsert]
  by_cases hm : k ∈ raceKeys m
  · simpa [hm] using h
  · simp only [if_neg hm]
    rw [List.nodup_append]
    refine ⟨h, List.nodup_singleton k, fun a ha hak => ?_⟩
    rw [List.mem_singleton] at hak
    exact hm (hak ▸ ha)

theorem findRace_ingest (m : List (Option Location × Race)) (e : Event) (K : Option Location) :
    findRace (ingest m e) K =
      if e.key = K then some (applyEvent (findRace m e.key) e) else findRace m K := by
  unfold ingest
  rw [findRace_upsert]
  by_cases h : e.key = K
  · simp [h]
  · rw [if_neg (fun hc => h hc.symm), if_neg h]

theorem aggregate_cons (m : List (Option Location × Race)) (e : Event) (evs : List Event) :
    aggregate m (e :: evs) = aggregate (ingest m e) evs := rfl

theorem find_aggregate (evs : List Event) (m : List (Option Location × Race))
    (K : Option Location) :
    findRace (aggregate m evs) K =
      (evs.filter (fun e => decide (e.key = K))).foldl
        (fun r? e => some (applyEvent r? e)) (findRace m K) := by
  induction evs generalizing m with
  | nil => rfl
  | cons e rest ih =>
    rw [aggregate_cons, ih (ingest m e), findRace_ingest]
    by_cases h : e.key = K
    · subst h
      simp [List.filter_cons]
    · simp [List.filter_cons, h]

theorem raceKeys_nodup_aggregate (evs : List Event) (m : List (Option Location × Race))
    (h : (raceKeys m).Nodup) : (raceKeys (aggregate m evs)).Nodup := by
  induction evs generalizing m with
  | nil => exact h
  | cons e rest ih =>
    rw [aggregate_cons]
    exact ih _ (raceKeys_nodup_upsert _ _ _ h)

theorem addTest_length (ts : List String) (t : String) :
    (addTest ts t).length ≤ ts.length + 1 := by
  unfold addTest
  by_cases h : t ∈ ts
  · rw [if_pos h]; omega
  · rw [if_neg h]; simp

theorem applyEvent_some_examples (r : Race) (e : Event) :
    (applyEvent (some r) e).examples = r.examples ++ [e.text] := by
  cases htest : e.test <;> simp [applyEvent, htest]

theorem applyEvent_some_tests_length (r : Race) (e : Event) :
    (applyEvent (some r) e).tests.length ≤ r.tests.length + 1 := by
  cases htest : e.test <;> simp [applyEvent, htest, addTest_length]

theorem foldl_applyEvent_some (kevs : List Event) (r : Race) :
    ∃ rf : Race,
      kevs.foldl (fun r? e => some (applyEvent r? e)) (some r) = some rf ∧
      rf.examples = r.examples ++ kevs.map Event.text ∧
      rf.tests.length ≤ r.tests.length + kevs.length := by
  induction kevs generalizing r with
  | nil => exact ⟨r, rfl, by simp, by simp⟩
  | cons e rest ih =>
    obtain ⟨rf, hfold, hex, hts⟩ := ih (applyEvent (some r) e)
    refine ⟨rf, hfold, ?_, ?_⟩
    · rw [hex, applyEvent_some_examples]
      simp
    · have h2 := applyEvent_some_tests_length r e
      simp only [List.length_cons]
      omega

/-! Lemmas relating the loop of main to the parser-plus-aggregator view. -/

theorem step_scan (sc : ScanSt) (m : List (Option Location × Race)) (line : String) :
    step ⟨sc.lines, sc.in_race, sc.cur_test, m⟩ line =
      match scanStep sc line with
      | .error e => .error e
      | .ok (sc', ev?) =>
        .ok ⟨sc'.lines, sc'.in_race, sc'.cur_test,
          match ev? with
          | some e => ingest m e
          | none => m⟩ := by
  obtain ⟨l, ir, ct⟩ := sc
  cases ir with
  | false =>
    simp only [step, scanStep]
    cases h : testStatusMatch line with
    | some t => simp
    | none =>
      by_cases hs : line = SEPARATOR <;> simp [hs]
  | true =>
    simp only [step, scanStep]
    by_cases hs : line = SEPARATOR
    · simp only [hs, if_pos rfl]
      cases hk : get_key l with
      | ok loc =>
        simp only [ingest, applyEvent]
        cases hfind : findRace m loc <;> cases ct <;> simp [hfind]
      | error e => simp
    · simp [hs]

theorem processLines_scan (ls : List String) (sc : ScanSt) (m : List (Option Location × Race)) :
    processLines ⟨sc.lines, sc.in_race, sc.cur_test, m⟩ ls =
      match scanLines sc ls with
      | .error e => .error e
      | .ok (sc', evs) => .ok ⟨sc'.lines, sc'.in_race, sc'.cur_test, aggregate m evs⟩ := by
  induction ls generalizing sc m with
  | nil => rfl
  | cons l ls ih =>
    simp only [processLines, scanLines, step_scan sc m l]
    cases hstep : scanStep sc l with
    | error e => rfl
    | ok p =>
      obtain ⟨sc', ev?⟩ := p
      simp only
      rw [ih sc']
      cases hscan : scanLines sc' ls with
      | error e => rfl
      | ok q =>
        obtain ⟨sc'', evs⟩ := q
        cases ev? with
        | none => rfl
        | some e => rfl

theorem scanLines_append (s : ScanSt) (xs ys : List String) :
    scanLines s (xs ++ ys) =
      match scanLines s xs with
      | .error e => .error e
      | .ok (s', evs) =>
        match scanLines s' ys with
        | .error e => .error e
        | .ok (s'', evs') => .ok (s'', evs ++ evs') := by
  induction xs generalizing s with
  | nil =>
    simp only [List.nil_append, scanLines]
    cases h : scanLines s ys with
    | error e => rfl
    | ok q => obtain ⟨s'', evs'⟩ := q; rfl
  | cons x xs ih =>
    simp only [List.cons_append, scanLines]
    cases hstep : scanStep s x with
    | error e => rfl
    | ok p =>
      obtain ⟨s', ev?⟩ := p
      simp only [List.append_eq]
      rw [ih s']
      cases h1 : scanLines s' xs with
      | error e => rfl
      | ok q =>
        obtain ⟨s'', evs⟩ := q
        simp only
        cases h2 : scanLines s'' ys with
        | error e => rfl
        | ok q2 => obtain ⟨s3, evs2⟩ := q2; simp

theorem testStatusMatch_SEPARATOR : testStatusMatch SEPARATOR = none := by decide

theorem scan_accumulate (body : List String) (s : ScanSt) (hin : s.in_race = true)
    (hb : ∀ l ∈ body, l ≠ SEPARATOR) :
    scanLines s body = .ok ({ s with lines := s.lines ++ body }, []) := by
  obtain ⟨lns, ir, ct⟩ := s
  simp only at hin
  subst hin
  revert hb
  induction body generalizing lns with
  | nil =>
    intro _
    simp [scanLines]
  | cons l ls ih =>
    intro hb
    have hl : l ≠ SEPARATOR := hb l (by simp)
    have ih' := ih (lns ++ [l]) (fun x hx => hb x (by simp [hx]))
    simp [scanLines, scanStep, hl, ih', List.append_assoc]

theorem scan_open (s : ScanSt) (h0 : s.in_race = false) :
    scanStep s SEPARATOR = .ok ({ s with in_race := true }, none) := by
  simp [scanStep, h0, testStatusMatch_SEPARATOR]

theorem scan_block (s : ScanSt) (body : List String) (k : Option Location)
    (h0 : s.in_race = false) (hl : s.lines = [])
    (hb : ∀ l ∈ body, l ≠ SEPARATOR) (hk : get_key body = .ok k) :
    scanLines s (SEPARATOR :: (body ++ [SEPARATOR])) =
      .ok (⟨[], false, s.cur_test⟩, [⟨k, joinNL body, s.cur_test⟩]) := by
  simp only [scanLines, scan_open s h0]
  rw [scanLines_append]
  rw [scan_accumulate body _ rfl hb]
  simp only [hl, List.nil_append, scanLines, scanStep, if_pos rfl, hk]
  rfl

theorem scan_plain (M : List String) (s : ScanSt) (h0 : s.in_race = false)
    (hM : ∀ l ∈ M, testStatusMatch l = none ∧ l ≠ SEPARATOR) :
    scanLines s M = .ok (s, []) := by
  revert hM
  induction M with
  | nil =>
    intro _
    rfl
  | cons l ls ih =>
    intro hM
    obtain ⟨hm, hs⟩ := hM l (by simp)
    have hrest := ih (fun x hx => hM x (by simp [hx]))
    simp [scanLines, scanStep, h0, hm, hs, hrest]

theorem scanStep_lines_inv (s : ScanSt) (line : String) (s' : ScanSt) (ev? : Option Event)
    (hinv : s.in_race = false → s.lines = [])
    (h : scanStep s line = .ok (s', ev?)) : s'.in_race = false → s'.lines = [] := by
  obtain ⟨l0, ir, ct⟩ := s
  cases ir with
  | true =>
    by_cases hs : line = SEPARATOR
    · subst hs
      cases hk : get_key l0 with
      | ok loc =>
        have hstep : scanStep ⟨l0, true, ct⟩ SEPARATOR =
            .ok (⟨[], false, ct⟩, some ⟨loc, joinNL l0, ct⟩) := by
          simp [scanStep, hk]
        rw [hstep] at h
        injection h with h2
        injection h2 with hA hB
        subst hA
        intro _
        rfl
      | error e =>
        have hstep : scanStep ⟨l0, true, ct⟩ SEPARATOR = .error e := by
          simp [scanStep, hk]
        rw [hstep] at h
        exact absurd h (by simp)
    · have hstep : scanStep ⟨l0, true, ct⟩ line = .ok (⟨l0 ++ [line], true, ct⟩, none) := by
        simp [scanStep, hs]
      rw [hstep] at h
      injection h with h2
      injection h2 with hA hB
      subst hA
      intro hc
      exact absurd hc (by simp)
  | false =>
    have hl : l0 = [] := hinv rfl
    subst hl
    cases hm : testStatusMatch line with
    | some t =>
      have hstep : scanStep ⟨[], false, ct⟩ line = .ok (⟨[], false, some t⟩, none) := by
        simp [scanStep, hm]
      rw [hstep] at h
      injection h with h2
      injection h2 with hA hB
      subst hA
      intro _
      rfl
    | none =>
      by_cases hs : line = SEPARATOR
      · subst hs
        rw [scan_open ⟨[], false, ct⟩ rfl] at h
        injection h with h2
        injection h2 with hA hB
        subst hA
        intro _
        rfl
      · have hstep : scanStep ⟨[], false, ct⟩ line = .ok (⟨[], false, ct⟩, none) := by
          simp [scanStep, hm, hs]
        rw [hstep] at h
        injection h with h2
        injection h2 with hA hB
        subst hA
        intro _
        rfl

theorem scanLines_lines_inv (ls : List String) (s : ScanSt) (s' : ScanSt) (evs : List Event)
    (hinv : s.in_race = false → s.lines = [])
    (h : scanLines s ls = .ok (s', evs)) : s'.in_race = false → s'.lines = [] := by
  induction ls generalizing s evs with
  | nil =>
    simp only [scanLines, Except.ok.injEq, Prod.mk.injEq] at h
    obtain ⟨h1, _⟩ := h
    subst h1
    exact hinv
  | cons l ls ih =>
    simp only [scanLines] at h
    cases hstep : scanStep s l with
    | error e =>
      rw [hstep] at h
      exact absurd h (by simp)
    | ok p =>
      obtain ⟨s1, ev?⟩ := p
      rw [hstep] at h
      simp only at h
      cases hrest : scanLines s1 ls with
      | error e =>
        rw [hrest] at h
        exact absurd h (by simp)
      | ok q =>
        obtain ⟨s2, evs2⟩ := q
        rw [hrest] at h
        simp only [Except.ok.injEq, Prod.mk.injEq] at h
        obtain ⟨h1, _⟩ := h
        subst h1
        exact ih s1 evs2 (scanStep_lines_inv s l s1 ev? hinv hstep) hrest

theorem processLines_scan_init (ls : List String) :
    processLines initState ls =
      match scanLines initScan ls with
      | .error e => .error e
      | .ok (sc', evs) => .ok ⟨sc'.lines, sc'.in_race, sc'.cur_test, aggregate [] evs⟩ :=
  processLines_scan ls initScan []

theorem mem_upsert (m : List (Option Location × Race)) (k : Option Location) (r : Race)
    (kv : Option Location × Race) (h : kv ∈ upsert m k r) : kv ∈ m ∨ kv = (k, r) := by
  induction m with
  | nil =>
    simp only [upsert, List.mem_singleton] at h
    exact Or.inr h
  | cons kv0 rest ih =>
    simp only [upsert] at h
    by_cases hk : kv0.1 = k
    · rw [if_pos hk] at h
      rcases List.mem_cons.mp h with h1 | h1
      · exact Or.inr (by rw [h1])
      · exact Or.inl (List.mem_cons_of_mem _ h1)
    · rw [if_neg hk] at h
      rcases List.mem_cons.mp h with h1 | h1
      · exact Or.inl (by rw [h1]; exact List.mem_cons_self _ _)
      · rcases ih h1 with h2 | h2
        · exact Or.inl (List.mem_cons_of_mem _ h2)
        · exact Or.inr h2

theorem applyEvent_examples_ne (r0 : Option Race) (e : Event) :
    (applyEvent r0 e).examples ≠ [] := by
  cases r0 <;> cases htest : e.test <;> simp [applyEvent, htest]

theorem applyEvent_none_examples (e : Event) :
    (applyEvent none e).examples = [e.text] := by
  cases htest : e.test <;> simp [applyEvent, htest]

theorem applyEvent_none_tests_length (e : Event) :
    (applyEvent none e).tests.length ≤ 1 := by
  cases htest : e.test <;> simp [applyEvent, htest, addTest]

theorem aggregate_examples_ne (evs : List Event) (m : List (Option Location × Race))
    (hm : ∀ kv ∈ m, kv.2.examples ≠ []) :
    ∀ kv ∈ aggregate m evs, kv.2.examples ≠ [] := by
  induction evs generalizing m with
  | nil => exact hm
  | cons e rest ih =>
    rw [aggregate_cons]
    refine ih _ (fun kv hkv => ?_)
    simp only [ingest] at hkv
    rcases mem_upsert _ _ _ kv hkv with h1 | h1
    · exact hm kv h1
    · rw [h1]
      exact applyEvent_examples_ne _ _

theorem mem_insertDesc (x : Option Location × Race) (l : List (Option Location × Race))
    (z : Option Location × Race) : z ∈ insertDesc x l ↔ z = x ∨ z ∈ l := by
  induction l with
  | nil => simp [insertDesc]
  | cons y ys ih =>
    by_cases h : raceCount y < raceCount x
    · simp only [insertDesc, if_pos h, List.mem_cons]
    · simp only [insertDesc, if_neg h, List.mem_cons, ih]
      tauto

theorem pairwise_insertDesc (x : Option Location × Race)
    (l : List (Option Location × Race))
    (h : List.Pairwise (fun a b => raceCount b ≤ raceCount a) l) :
    List.Pairwise (fun a b => raceCount b ≤ raceCount a) (insertDesc x l) := by
  induction l with
  | nil => simp [insertDesc]
  | cons y ys ih =>
    rcases List.pairwise_cons.mp h with ⟨hy, hys⟩
    by_cases hlt : raceCount y < raceCount x
    · simp only [insertDesc, if_pos hlt]
      refine List.pairwise_cons.mpr ⟨?_, h⟩
      intro z hz
      rcases List.mem_cons.mp hz with h1 | h1
      · rw [h1]; omega
      · have := hy z h1; omega
    · simp only [insertDesc, if_neg hlt]
      refine List.pairwise_cons.mpr ⟨?_, ih hys⟩
      intro z hz
      rcases (mem_insertDesc x ys z).mp hz with h1 | h1
      · rw [h1]; omega
      · exact hy z h1

theorem foldl_insertDesc_pairwise (l acc : List (Option Location × Race))
    (hacc : List.Pairwise (fun a b => raceCount b ≤ raceCount a) acc) :
    List.Pairwise (fun a b => raceCount b ≤ raceCount a)
      (l.foldl (fun acc kv => insertDesc kv acc) acc) := by
  induction l generalizing acc with
  | nil => exact hacc
  | cons x xs ih => exact ih _ (pairwise_insertDesc x acc hacc)

/-! Claim theorems. -/

/-- Claim C10: whenever the loop of main has processed a prefix of the input
and is not inside a block, the pending-lines buffer is empty; the buffer
starts empty, is reset on every block close, and is only extended while
inside a block, so a block always starts accumulating from an empty buffer
even though the code never clears the buffer at block open. -/
theorem claim_C10_buffer_empty_outside_block (input : List String) (s : PState)
    (h : processLines initState input = .ok s) (h2 : s.in_race = false) :
    s.lines = [] := by
  rw [processLines_scan_init input] at h
  cases hscan : scanLines initScan input with
  | error e =>
    rw [hscan] at h
    exact absurd h (by simp)
  | ok q =>
    obtain ⟨sc', evs⟩ := q
    rw [hscan] at h
    injection h with h'
    subst h'
    exact scanLines_lines_inv input initScan sc' evs (fun _ => rfl) hscan h2

/-- Witness for claim C10 at a concrete input. -/
theorem claim_C10_witness :
    processLines initState ["x"] = .ok initState ∧
    initState.in_race = false ∧ initState.lines = [] :=
  ⟨rfl, rfl, claim_C10_buffer_empty_outside_block ["x"] initState rfl rfl⟩

/-- Claim C9: every record present in the final mapping has a nonempty
examples sequence; a record is created exactly when a block closes and that
close immediately appends an example, so every stored record has at least
one example. -/
theorem claim_C9_examples_nonempty (input : List String)
    (m : List (Option Location × Race)) (h : racesOf input = .ok m) :
    ∀ kv ∈ m, kv.2.examples ≠ [] ∧ 1 ≤ kv.2.examples.length := by
  unfold racesOf at h
  rw [processLines_scan_init input] at h
  cases hscan : scanLines initScan input with
  | error e =>
    rw [hscan] at h
    simp [Except.map] at h
  | ok q =>
    obtain ⟨sc', evs⟩ := q
    rw [hscan] at h
    simp only [Except.map, Except.ok.injEq] at h
    subst h
    intro kv hkv
    have hne := aggregate_examples_ne evs [] (by simp) kv hkv
    exact ⟨hne, by
      have := List.length_pos.mpr hne
      omega⟩

/-- Witness for claim C9 at a concrete input. -/
theorem claim_C9_witness :
    racesOf ["==================", "    # f a.c:1:2 r", "=================="] =
      .ok [(some ⟨"f", "a.c", 1⟩,
            ⟨[], some ⟨"f", "a.c", 1⟩, ["    # f a.c:1:2 r"]⟩)] ∧
    (∀ kv ∈ [((some ⟨"f", "a.c", 1⟩ : Option Location),
              (⟨[], some ⟨"f", "a.c", 1⟩, ["    # f a.c:1:2 r"]⟩ : Race))],
      kv.2.examples ≠ [] ∧ 1 ≤ kv.2.examples.length) :=
  ⟨rfl, claim_C9_examples_nonempty
    ["==================", "    # f a.c:1:2 r", "=================="]
    [(some ⟨"f", "a.c", 1⟩, ⟨[], some ⟨"f", "a.c", 1⟩, ["    # f a.c:1:2 r"]⟩)] rfl⟩

/-- Claim C4: a block left unclosed at end of input is silently discarded.
If a prefix P leaves main outside a block, then appending a separator and
any lines that never close the block leaves the final mapping exactly the
mapping after P; in particular an input that is one opening separator
followed by non-separator lines yields an empty mapping. -/
theorem claim_C4_unclosed_block_discarded :
    (∀ (P tail : List String) (s0 : PState),
      processLines initState P = .ok s0 → s0.in_race = false →
      (∀ l ∈ tail, l ≠ SEPARATOR) →
      racesOf (P ++ SEPARATOR :: tail) = .ok s0.races) ∧
    (∀ tail : List String, (∀ l ∈ tail, l ≠ SEPARATOR) →
      racesOf (SEPARATOR :: tail) = .ok []) := by
  have hmain : ∀ (P tail : List String) (s0 : PState),
      processLines initState P = .ok s0 → s0.in_race = false →
      (∀ l ∈ tail, l ≠ SEPARATOR) →
      racesOf (P ++ SEPARATOR :: tail) = .ok s0.races := by
    intro P tail s0 hP h0 ht
    rw [processLines_scan_init P] at hP
    cases hscan : scanLines initScan P with
    | error e =>
      rw [hscan] at hP
      exact absurd hP (by simp)
    | ok q =>
      obtain ⟨sc0, evs0⟩ := q
      rw [hscan] at hP
      injection hP with h'
      subst h'
      obtain ⟨l0, ir0, ct0⟩ := sc0
      have hir : ir0 = false := h0
      subst hir
      have hacc := scan_accumulate tail ⟨l0, true, ct0⟩ rfl ht
      have hblk : scanLines (⟨l0, false, ct0⟩ : ScanSt) (SEPARATOR :: tail) =
          .ok (⟨l0 ++ tail, true, ct0⟩, []) := by
        simp [scanLines, scanStep, testStatusMatch_SEPARATOR, hacc]
      unfold racesOf
      rw [processLines_scan_init, scanLines_append, hscan]
      dsimp only
      rw [hblk]
      simp [Except.map]
  refine ⟨hmain, fun tail ht => ?_⟩
  have := hmain [] tail initState rfl rfl ht
  simpa using this

/-- Witness for claim C4 at a concrete input. -/
theorem claim_C4_witness :
    racesOf ["==================", "no closing separator here"] = .ok [] :=
  (claim_C4_unclosed_block_discarded).2 ["no closing separator here"] (by decide)

/-- Claim C6: the renderer emits records sorted by descending example count:
whenever one record strictly exceeds another in example count, it appears
strictly earlier in the rendered order.  Stated as the pairwise descending
property together with the positional form. -/
theorem claim_C6_render_sorted_desc (m : List (Option Location × Race)) :
    List.Pairwise (fun a b => raceCount b ≤ raceCount a) (render_races m) ∧
    (∀ i j : Fin (render_races m).length,
      raceCount ((render_races m).get j) < raceCount ((render_races m).get i) → i < j) := by
  have hp : List.Pairwise (fun a b => raceCount b ≤ raceCount a) (render_races m) :=
    foldl_insertDesc_pairwise m [] List.Pairwise.nil
  refine ⟨hp, fun i j hlt => ?_⟩
  rcases lt_trichotomy i j with h | h | h
  · exact h
  · rw [h] at hlt
    omega
  · have := (List.pairwise_iff_get.mp hp) j i h
    omega

/-- Witness for claim C6 at a concrete mapping with two distinct counts. -/
theorem claim_C6_witness : (0 : Nat) < 1 := by
  have h := (claim_C6_render_sorted_desc
    [(none, ⟨[], none, ["a"]⟩),
     (some ⟨"f", "g.c", 1⟩, ⟨[], some ⟨"f", "g.c", 1⟩, ["b", "c"]⟩)]).2
    ⟨0, by decide⟩ ⟨1, by decide⟩ (by decide)
  exact h

theorem countP_eq_one_of_nodup_mem (l : List (Option Location)) (K : Option Location)
    (hnd : l.Nodup) (hmem : K ∈ l) :
    l.countP (fun k => decide (k = K)) = 1 := by
  induction l with
  | nil => simp at hmem
  | cons a as ih =>
    rw [List.countP_cons]
    rcases List.mem_cons.mp hmem with h1 | h1
    · subst h1
      have ha : K ∉ as := (List.nodup_cons.mp hnd).1
      have hz : as.countP (fun k => decide (k = K)) = 0 :=
        List.countP_eq_zero.mpr (fun x hx => by simp; exact fun hc => ha (hc ▸ hx))
      simp [hz]
    · have hanek : ¬ a = K := by
        intro hc
        subst hc
        exact (List.nodup_cons.mp hnd).1 h1
      rw [ih (List.nodup_cons.mp hnd).2 h1]
      simp [hanek]

/-- Claim C2: when the parser emits N events with the same derived key
(one per closed race block, the absent key none included), the final mapping
holds exactly one record under that key, its examples are exactly the N
block texts in arrival order, and its deduplicated tests hold at most N
names. -/
theorem claim_C2_identical_key_aggregation (input : List String) (sc' : ScanSt)
    (evs : List Event) (K : Option Location)
    (h : scanLines initScan input = .ok (sc', evs))
    (hne : evs.filter (fun e => decide (e.key = K)) ≠ []) :
    ∃ m r, racesOf input = .ok m ∧
      findRace m K = some r ∧
      (raceKeys m).countP (fun k => decide (k = K)) = 1 ∧
      r.examples = (evs.filter (fun e => decide (e.key = K))).map Event.text ∧
      r.tests.length ≤ (evs.filter (fun e => decide (e.key = K))).length := by
  have hrun : racesOf input = .ok (aggregate [] evs) := by
    unfold racesOf
    rw [processLines_scan_init input, h]
    rfl
  have hfind := find_aggregate evs [] K
  rw [show findRace [] K = none from rfl] at hfind
  cases hkevs : evs.filter (fun e => decide (e.key = K)) with
  | nil => exact absurd hkevs hne
  | cons e rest =>
    rw [hkevs] at hfind
    simp only [List.foldl_cons] at hfind
    obtain ⟨rf, hfold, hex, hts⟩ := foldl_applyEvent_some rest (applyEvent none e)
    rw [hfold] at hfind
    refine ⟨aggregate [] evs, rf, hrun, hfind, ?_, ?_, ?_⟩
    · have hmem : K ∈ raceKeys (aggregate [] evs) := by
        by_contra hcon
        rw [← findRace_eq_none_iff] at hcon
        rw [hcon] at hfind
        exact absurd hfind (by simp)
      have hnd : (raceKeys (aggregate [] evs)).Nodup :=
        raceKeys_nodup_aggregate evs [] (by simp [raceKeys])
      exact countP_eq_one_of_nodup_mem _ _ hnd hmem
    · rw [hex, applyEvent_none_examples]
      simp
    · have h1 := applyEvent_none_tests_length e
      simp only [List.length_cons]
      omega

/-- Witness for claim C2 at a concrete input with two blocks of equal key. -/
theorem claim_C2_witness :
    ∃ m r, racesOf ["==================", "    # f a.c:1:2 r", "==================",
        "==================", "    # f a.c:1:2 s", "=================="] = .ok m ∧
      findRace m (some ⟨"f", "a.c", 1⟩) = some r ∧
      (raceKeys m).countP (fun k => decide (k = some ⟨"f", "a.c", 1⟩)) = 1 ∧
      r.examples = ["    # f a.c:1:2 r", "    # f a.c:1:2 s"] ∧
      r.tests.length ≤ 2 :=
  claim_C2_identical_key_aggregation
    ["==================", "    # f a.c:1:2 r", "==================",
     "==================", "    # f a.c:1:2 s", "=================="]
    ⟨[], false, none⟩
    [⟨some ⟨"f", "a.c", 1⟩, "    # f a.c:1:2 r", none⟩,
     ⟨some ⟨"f", "a.c", 1⟩, "    # f a.c:1:2 s", none⟩]
    (some ⟨"f", "a.c", 1⟩) rfl (by decide)

/-- Claim C1: when key derivation succeeds, it returns the Location taken
from the first line that begins with four spaces and a hash and whose
function-name field does not begin with the primitive name; frames whose
function name matches the primitive name are skipped, later qualifying
frames are never used, and a block without a qualifying stack-frame line
yields the absent key none. -/
theorem claim_C1_first_qualifying_frame (lines : List String) (r : Option Location)
    (h : get_key lines = .ok r) :
    match lines.find? qualifies with
    | some l => ∃ loc, lineLocation l = some loc ∧ r = some loc
    | none => r = none := by
  induction lines with
  | nil =>
    simp only [get_key, Except.ok.injEq] at h
    subst h
    simp [List.find?]
  | cons l ls ih =>
    simp only [get_key] at h
    cases hf : pyStartsWith l "    #" with
    | false =>
      rw [hf] at h
      simp only [Bool.false_eq_true, if_false] at h
      have hq : ¬ qualifies l := by
        simp [qualifies, hf]
      rw [List.find?_cons_of_neg _ hq]
      exact ih h
    | true =>
      rw [hf] at h
      simp only [if_true] at h
      cases hws : wsSplit l with
      | nil =>
        rw [hws] at h
        simp at h
      | cons t0 rest0 =>
        cases rest0 with
        | nil =>
          rw [hws] at h
          simp at h
        | cons f rest1 =>
          cases rest1 with
          | nil =>
            rw [hws] at h
            simp at h
          | cons lc rest2 =>
            cases rest2 with
            | nil =>
              rw [hws] at h
              simp at h
            | cons r4 rs =>
              rw [hws] at h
              simp only at h
              cases hp : primitiveMatch f with
              | true =>
                rw [hp] at h
                simp only [if_true] at h
                have hq : ¬ qualifies l := by
                  simp [qualifies, funcField, hws, hf, hp]
                rw [List.find?_cons_of_neg _ hq]
                exact ih h
              | false =>
                rw [hp] at h
                simp only [Bool.false_eq_true, if_false] at h
                have hq : qualifies l := by
                  simp [qualifies, funcField, hws, hf, hp]
                rw [List.find?_cons_of_pos _ hq]
                cases hm : mkLocation f lc with
                | ok loc =>
                  rw [hm] at h
                  simp only [Except.ok.injEq] at h
                  subst h
                  exact ⟨loc, by simp [lineLocation, hws, hm], rfl⟩
                | error e =>
                  rw [hm] at h
                  simp at h

/-- Witness for claim C1: a primitive frame is skipped, the next frame is
used and a trailing frame never considered. -/
theorem claim_C1_witness :
    get_key ["    # _Py_atomic_load x.c:9:9 m", "    # fa a.c:4:2 m",
        "    # fb b.c:5:1 m"] = .ok (some ⟨"fa", "a.c", 4⟩) ∧
    (match ["    # _Py_atomic_load x.c:9:9 m", "    # fa a.c:4:2 m",
        "    # fb b.c:5:1 m"].find? qualifies with
     | some l => ∃ loc, lineLocation l = some loc ∧
        (some ⟨"fa", "a.c", 4⟩ : Option Location) = some loc
     | none => (some ⟨"fa", "a.c", 4⟩ : Option Location) = none) :=
  ⟨rfl, claim_C1_first_qualifying_frame
    ["    # _Py_atomic_load x.c:9:9 m", "    # fa a.c:4:2 m", "    # fb b.c:5:1 m"]
    (some ⟨"fa", "a.c", 4⟩) rfl⟩

/-- Claim C5: the location token is split on the colon; exactly three parts
give path and line number from the first two parts, any other arity falls
back to the whole token as path with line number zero; in both cases the
stored path is the basename of the path and the stored line number is the
integer value of the lineno part. -/
theorem claim_C5_location_token_split (func loc : String) (L : Location)
    (h : mkLocation func loc = .ok L) :
    match splitColon loc with
    | [p, l, _] => L.func = func ∧ L.path = basename p ∧ pyInt l = some L.lineno
    | _ => L.func = func ∧ L.path = basename loc ∧ L.lineno = 0 := by
  unfold mkLocation at h
  cases hs : splitColon loc with
  | nil =>
    rw [hs] at h
    simp only at h
    cases hi : pyInt "0" with
    | none => rw [hi] at h; simp at h
    | some n =>
      rw [hi] at h
      simp only [Except.ok.injEq] at h
      subst h
      have : n = 0 := by
        have : pyInt "0" = some 0 := by decide
        rw [this] at hi
        injection hi with h'
        exact h'.symm
      simp [this]
  | cons p0 rest0 =>
    cases rest0 with
    | nil =>
      rw [hs] at h
      simp only at h
      cases hi : pyInt "0" with
      | none => rw [hi] at h; simp at h
      | some n =>
        rw [hi] at h
        simp only [Except.ok.injEq] at h
        subst h
        have : n = 0 := by
          have h0 : pyInt "0" = some 0 := by decide
          rw [h0] at hi
          injection hi with h'
          exact h'.symm
        simp [this]
    | cons l0 rest1 =>
      cases rest1 with
      | nil =>
        rw [hs] at h
        simp only at h
        cases hi : pyInt "0" with
        | none => rw [hi] at h; simp at h
        | some n =>
          rw [hi] at h
          simp only [Except.ok.injEq] at h
          subst h
          have : n = 0 := by
            have h0 : pyInt "0" = some 0 := by decide
            rw [h0] at hi
            injection hi with h'
            exact h'.symm
          simp [this]
      | cons e0 rest2 =>
        cases rest2 with
        | nil =>
          rw [hs] at h
          simp only at h
          cases hi : pyInt l0 with
          | none => rw [hi] at h; simp at h
          | some n =>
            rw [hi] at h
            simp only [Except.ok.injEq] at h
            subst h
            simp [hi]
        | cons e1 rest3 =>
          rw [hs] at h
          simp only at h
          cases hi : pyInt "0" with
          | none => rw [hi] at h; simp at h
          | some n =>
            rw [hi] at h
            simp only [Except.ok.injEq] at h
            subst h
            have : n = 0 := by
              have h0 : pyInt "0" = some 0 := by decide
              rw [h0] at hi
              injection hi with h'
              exact h'.symm
            simp [this]

/-- Witness for claim C5 in the three-part and fallback arities. -/
theorem claim_C5_witness :
    (match splitColon "d/a.c:7:3" with
     | [p, l, _] => Location.func ⟨"fn", "a.c", 7⟩ = "fn" ∧
        Location.path ⟨"fn", "a.c", 7⟩ = basename p ∧
        pyInt l = some (Location.lineno ⟨"fn", "a.c", 7⟩)
     | _ => Location.func ⟨"fn", "a.c", 7⟩ = "fn" ∧
        Location.path ⟨"fn", "a.c", 7⟩ = basename "d/a.c:7:3" ∧
        Location.lineno ⟨"fn", "a.c", 7⟩ = 0) ∧
    (match splitColon "plain.c" with
     | [p, l, _] => Location.func ⟨"fn", "plain.c", 0⟩ = "fn" ∧
        Location.path ⟨"fn", "plain.c", 0⟩ = basename p ∧
        pyInt l = some (Location.lineno ⟨"fn", "plain.c", 0⟩)
     | _ => Location.func ⟨"fn", "plain.c", 0⟩ = "fn" ∧
        Location.path ⟨"fn", "plain.c", 0⟩ = basename "plain.c" ∧
        Location.lineno ⟨"fn", "plain.c", 0⟩ = 0) :=
  ⟨claim_C5_location_token_split "fn" "d/a.c:7:3" ⟨"fn", "a.c", 7⟩ rfl,
   claim_C5_location_token_split "fn" "plain.c" ⟨"fn", "plain.c", 0⟩ rfl⟩

theorem get_key_skip (pre rest : List String)
    (hskip : ∀ l ∈ pre, pyStartsWith l "    #" = false ∨
      (∃ t0 f lc r4 rs, wsSplit l = t0 :: f :: lc :: r4 :: rs ∧ primitiveMatch f = true)) :
    get_key (pre ++ rest) = get_key rest := by
  induction pre with
  | nil => rfl
  | cons l ls ih =>
    have ihl := ih (fun x hx => hskip x (by simp [hx]))
    rcases hskip l (by simp) with h1 | ⟨t0, f, lc, r4, rs, hws, hp⟩
    · simp only [List.cons_append, get_key, h1, Bool.false_eq_true, if_false]
      exact ihl
    · cases hf : pyStartsWith l "    #" with
      | false =>
        simp only [List.cons_append, get_key, hf, Bool.false_eq_true, if_false]
        exact ihl
      | true =>
        simp only [List.cons_append, get_key, hf, if_true, hws, hp]
        exact ihl

theorem mkLocation_err (func lc p l e : String) (hs : splitColon lc = [p, l, e])
    (hi : pyInt l = none) : mkLocation func lc = .error "invalid literal for int" := by
  unfold mkLocation
  rw [hs]
  dsimp only
  rw [hi]

theorem get_key_err (badLine : String) (rest : List String)
    (hfr : pyStartsWith badLine "    #" = true)
    (htrig : (wsSplit badLine).length < 4 ∨
      (∃ t0 f lc r4 rs, wsSplit badLine = t0 :: f :: lc :: r4 :: rs ∧
        primitiveMatch f = false ∧
        ∃ p l e, splitColon lc = [p, l, e] ∧ pyInt l = none)) :
    ∃ err, get_key (badLine :: rest) = .error err := by
  rcases htrig with hlen | ⟨t0, f, lc, r4, rs, hws, hp, p, l, e, hs, hi⟩
  · refine ⟨"not enough values to unpack", ?_⟩
    simp only [get_key, hfr, if_true]
    cases hws : wsSplit badLine with
    | nil => rfl
    | cons a0 b0 =>
      cases b0 with
      | nil => rfl
      | cons a1 b1 =>
        cases b1 with
        | nil => rfl
        | cons a2 b2 =>
          cases b2 with
          | nil => rfl
          | cons a3 b3 =>
            rw [hws] at hlen
            simp at hlen
            omega
  · refine ⟨"invalid literal for int", ?_⟩
    simp only [get_key, hfr, if_true, hws, hp, Bool.false_eq_true, if_false]
    rw [mkLocation_err f lc p l e hs hi]

/-- Claim C3: a fatal key-derivation error aborts the whole run with no
output at all.  A closed block containing, before any qualifying frame,
either a stack-frame line with fewer than four whitespace-separated tokens
or a frame whose location token splits on colon into exactly three parts
with a non-numeric line number makes runMain fail, regardless of blocks
parsed earlier or input that follows. -/
theorem claim_C3_malformed_frame_fatal (P bodyPre bodyPost S : List String)
    (badLine : String) (s0 : PState)
    (hP : processLines initState P = .ok s0) (h0 : s0.in_race = false)
    (hpre : ∀ l ∈ bodyPre, l ≠ SEPARATOR)
    (hpost : ∀ l ∈ bodyPost, l ≠ SEPARATOR)
    (hbadsep : badLine ≠ SEPARATOR)
    (hskip : ∀ l ∈ bodyPre, pyStartsWith l "    #" = false ∨
      (∃ t0 f lc r4 rs, wsSplit l = t0 :: f :: lc :: r4 :: rs ∧ primitiveMatch f = true))
    (hfr : pyStartsWith badLine "    #" = true)
    (htrig : (wsSplit badLine).length < 4 ∨
      (∃ t0 f lc r4 rs, wsSplit badLine = t0 :: f :: lc :: r4 :: rs ∧
        primitiveMatch f = false ∧
        ∃ p l e, splitColon lc = [p, l, e] ∧ pyInt l = none)) :
    ∃ err, runMain (P ++ SEPARATOR :: ((bodyPre ++ badLine :: bodyPost) ++ SEPARATOR :: S))
      = .error err := by
  rw [runMain, processLines_scan_init] at *
  rw [scanLines_append]
  cases hscan : scanLines initScan P with
  | error e =>
    rw [hscan] at hP
    simp at hP
  | ok q =>
    obtain ⟨sc0, evs0⟩ := q
    rw [hscan] at hP
    injection hP with h'
    subst h'
    obtain ⟨l0, ir0, ct0⟩ := sc0
    have hir : ir0 = false := h0
    subst hir
    have hl0 : l0 = [] :=
      scanLines_lines_inv P initScan ⟨l0, false, ct0⟩ evs0 (fun _ => rfl) hscan rfl
    subst hl0
    obtain ⟨err, hgk⟩ : ∃ err, get_key (bodyPre ++ badLine :: bodyPost) = .error err := by
      rw [get_key_skip bodyPre _ hskip]
      exact get_key_err badLine bodyPost hfr htrig
    have hbody : ∀ x ∈ bodyPre ++ badLine :: bodyPost, x ≠ SEPARATOR := by
      intro x hx
      rcases List.mem_append.mp hx with h1 | h1
      · exact hpre x h1
      · rcases List.mem_cons.mp h1 with h2 | h2
        · rw [h2]; exact hbadsep
        · exact hpost x h2
    have hacc := scan_accumulate (bodyPre ++ badLine :: bodyPost) ⟨[], true, ct0⟩ rfl hbody
    have hclose : scanStep ⟨bodyPre ++ badLine :: bodyPost, true, ct0⟩ SEPARATOR =
        .error err := by
      simp [scanStep, hgk]
    have hblk : scanLines (⟨[], false, ct0⟩ : ScanSt)
        (SEPARATOR :: ((bodyPre ++ badLine :: bodyPost) ++ SEPARATOR :: S)) = .error err := by
      simp only [scanLines]
      rw [scan_open ⟨[], false, ct0⟩ rfl]
      dsimp only
      rw [scanLines_append, hacc]
      dsimp only [List.nil_append]
      simp only [scanLines]
      rw [hclose]
    dsimp only
    rw [hblk]
    exact ⟨err, rfl⟩

/-- Witness for claim C3: a block parsed successfully is followed by a block
whose only frame line has three tokens; the whole run fails. -/
theorem claim_C3_witness :
    ∃ err, runMain ["==================", "    # g b.c:1:2 x", "==================",
        "==================", "noise", "    # f a", "=================="] = .error err :=
  claim_C3_malformed_frame_fatal
    ["==================", "    # g b.c:1:2 x", "=================="]
    ["noise"] [] [] "    # f a"
    ⟨[], false, none,
      [(some ⟨"g", "b.c", 1⟩, ⟨[], some ⟨"g", "b.c", 1⟩, ["    # g b.c:1:2 x"]⟩)]⟩
    rfl rfl (by decide) (by decide) (by decide)
    (by intro l hl
        left
        simp at hl
        subst hl
        decide)
    (by decide) (Or.inl (by decide))

/-! Lemmas about the regex matcher. -/

theorem plusLoop_run (next : List Char → Option String) (f : Char → Bool)
    (run rest : List Char) (r : String)
    (hrun : ∀ c ∈ run, f c = true)
    (hrest : ∀ c, rest.head? = some c → f c = false)
    (hnext : next rest = some r) :
    plusLoop next f (run ++ rest) = some r := by
  induction run with
  | nil =>
    cases rest with
    | nil => simpa [plusLoop] using hnext
    | cons c cs =>
      have hc : f c = false := hrest c rfl
      simp [plusLoop, hc, hnext]
  | cons c run' ih =>
    have hc : f c = true := hrun c (by simp)
    have ih' := ih (fun x hx => hrun x (by simp [hx]))
    simp [plusLoop, hc, ih']

theorem matchToks_plus_run (f : Char → Bool) (ts : List Tok) (run rest : List Char)
    (r : String) (hne : run ≠ []) (hrun : ∀ c ∈ run, f c = true)
    (hnext : matchToks ts rest = some r)
    (hrest : ∀ c, rest.head? = some c → f c = false) :
    matchToks (.plus f :: ts) (run ++ rest) = some r := by
  cases run with
  | nil => exact absurd rfl hne
  | cons c run' =>
    have hc : f c = true := hrun c (by simp)
    have h := plusLoop_run (matchToks ts) f run' rest r
      (fun x hx => hrun x (by simp [hx])) hrest hnext
    simp [matchToks, hc, h]

theorem matchToks_lit_run (s : List Char) (ts : List Tok) (cs : List Char) :
    matchToks (s.map Tok.lit ++ ts) (s ++ cs) = matchToks ts cs := by
  induction s with
  | nil => rfl
  | cons c s' ih => simp [matchToks, ih]

theorem matchToks_litToks (s : String) (ts : List Tok) (cs : List Char) :
    matchToks (litToks s ++ ts) (s.toList ++ cs) = matchToks ts cs :=
  matchToks_lit_run s.toList ts cs

theorem matchToks_lit1 (c : Char) (ts : List Tok) (cs : List Char) :
    matchToks (.lit c :: ts) (c :: cs) = matchToks ts cs := by
  simp [matchToks]

theorem matchToks_cls_run (f : Char → Bool) (ts : List Tok) (c : Char) (cs : List Char)
    (hc : f c = true) :
    matchToks (.cls f :: ts) (c :: cs) = matchToks ts cs := by
  simp [matchToks, hc]

theorem matchToks_opt_skip (c0 : Char) (ts : List Tok) (c : Char) (cs : List Char)
    (hc : ¬ c = c0) :
    matchToks (.opt c0 :: ts) (c :: cs) = matchToks ts (c :: cs) := by
  simp [matchToks, hc]

theorem matchToks_cap (pre : List Char) (f : Char → Bool) (ts : List Tok) (cs : List Char) :
    matchToks (.cap pre f :: ts) cs = capMatch pre f cs := rfl

theorem dropLead_append (pre cs : List Char) : dropLead pre (pre ++ cs) = some cs := by
  induction pre with
  | nil => rfl
  | cons p ps ih => simp [dropLead, ih]

theorem takeWhile_run (f : Char → Bool) (run rest : List Char)
    (hrun : ∀ c ∈ run, f c = true)
    (hrest : ∀ c, rest.head? = some c → f c = false) :
    (run ++ rest).takeWhile f = run := by
  induction run with
  | nil =>
    cases rest with
    | nil => rfl
    | cons c cs => simp [List.takeWhile_cons, hrest c rfl]
  | cons c run' ih =>
    simp [List.takeWhile_cons, hrun c (by simp), ih (fun x hx => hrun x (by simp [hx]))]

theorem capMatch_run (pre : List Char) (f : Char → Bool) (nm rest : List Char)
    (hne : nm ≠ []) (hnm : ∀ c ∈ nm, f c = true)
    (hrest : ∀ c, rest.head? = some c → f c = false) :
    capMatch pre f (pre ++ (nm ++ rest)) = some (String.mk (pre ++ nm)) := by
  unfold capMatch
  rw [dropLead_append]
  dsimp only
  rw [takeWhile_run f nm rest hnm hrest]
  cases nm with
  | nil => exact absurd rfl hne
  | cons c nm' => rfl

theorem headNot_rfl (f : Char → Bool) (rest : List Char) (c0 : Char)
    (h0 : rest.head? = some c0) (h : f c0 = false) :
    ∀ c, rest.head? = some c → f c = false := by
  intro c hc
  rw [h0] at hc
  injection hc with h'
  subst h'
  exact h

theorem digit_ne_space (c : Char) (h : isDigitChar c = true) : ¬ c = ' ' := by
  intro hc
  subst hc
  exact absurd h (by decide)

theorem mem_addTest_self (ts : List String) (t : String) : t ∈ addTest ts t := by
  unfold addTest
  by_cases h : t ∈ ts
  · rw [if_pos h]; exact h
  · rw [if_neg h]; simp

/-- Claim C7: outside a block, a line of the test-status shape (digits,
colon, digits, colon, digits, the load-avg text, a float, a bracketed pair
of integers, then a name of the form test underscore alphanumerics) sets
the current test to exactly that name token, overwriting any previous
value; the current test is changed by nothing else; every block closed
afterwards carries the current test into its record, and a close with no
current test set adds no test name.  Stated as a conjunction: the regex
match on pattern-shaped lines, the state update on a match, persistence of
the current test on every other step, the record update on a carried test,
the record update without one, the test carried by a close event, and the
absent initial test. -/
theorem claim_C7_test_status_line :
    (∀ t1 t2 t3 f1 f2 a b nm rest : List Char,
      (t1 ≠ [] ∧ ∀ c ∈ t1, isDigitChar c = true) →
      (t2 ≠ [] ∧ ∀ c ∈ t2, isDigitChar c = true) →
      (t3 ≠ [] ∧ ∀ c ∈ t3, isDigitChar c = true) →
      (f1 ≠ [] ∧ ∀ c ∈ f1, isDigitChar c = true) →
      (f2 ≠ [] ∧ ∀ c ∈ f2, isDigitChar c = true) →
      (a ≠ [] ∧ ∀ c ∈ a, isDigitChar c = true) →
      (b ≠ [] ∧ ∀ c ∈ b, isDigitChar c = true) →
      (nm ≠ [] ∧ ∀ c ∈ nm, isAlnumChar c = true) →
      (∀ c, rest.head? = some c → isAlnumChar c = false) →
      testStatusMatch (String.mk (t1 ++ (':' :: (t2 ++ (':' :: (t3 ++
        (" load avg: ".toList ++ (f1 ++ ('.' :: (f2 ++ (' ' :: ('[' ::
        (a ++ ('/' :: (b ++ (']' :: (' ' :: ("test_".toList ++
        (nm ++ rest))))))))))))))))))) =
        some (String.mk ("test_".toList ++ nm))) ∧
    (∀ (s : ScanSt) (line t : String), s.in_race = false →
      testStatusMatch line = some t →
      scanStep s line = .ok ({ s with cur_test := some t }, none)) ∧
    (∀ (s : ScanSt) (line : String) (s' : ScanSt) (ev? : Option Event),
      scanStep s line = .ok (s', ev?) →
      s'.cur_test = s.cur_test ∨
        (s.in_race = false ∧ ∃ t, testStatusMatch line = some t ∧ s'.cur_test = some t)) ∧
    (∀ (m : List (Option Location × Race)) (e : Event) (t : String), e.test = some t →
      ∃ r, findRace (ingest m e) e.key = some r ∧ t ∈ r.tests) ∧
    (∀ (m : List (Option Location × Race)) (e : Event), e.test = none →
      ∃ r, findRace (ingest m e) e.key = some r ∧
        r.tests = (match findRace m e.key with | some r0 => r0.tests | none => [])) ∧
    (∀ (s s' : ScanSt) (e : Event), s.in_race = true →
      scanStep s SEPARATOR = .ok (s', some e) →
      e.test = s.cur_test ∧ s'.cur_test = s.cur_test) ∧
    initScan.cur_test = none := by
  refine ⟨?_, ?_, ?_, ?_, ?_, ?_, rfl⟩
  · intro t1 t2 t3 f1 f2 a b nm rest ht1 ht2 ht3 hf1 hf2 ha hb hnm hrest
    obtain ⟨ca, a', haa⟩ : ∃ ca a', a = ca :: a' := by
      cases a with
      | nil => exact absurd rfl ha.1
      | cons x xs => exact ⟨x, xs, rfl⟩
    subst haa
    have hcap : matchToks [.cap "test_".toList isAlnumChar]
        ("test_".toList ++ (nm ++ rest)) = some (String.mk ("test_".toList ++ nm)) :=
      (matchToks_cap _ _ _ _).trans
        (capMatch_run "test_".toList isAlnumChar nm rest hnm.1 hnm.2 hrest)
    have h8 := (matchToks_lit1 ' ' _ _).trans hcap
    have h7 := (matchToks_lit1 ']' _ _).trans h8
    have h6 := matchToks_plus_run isDigitChar _ b _ _ hb.1 hb.2 h7
      (headNot_rfl isDigitChar _ ']' rfl (by decide))
    have h5 := (matchToks_lit1 '/' _ _).trans h6
    have h4 := matchToks_plus_run isDigitChar _ (ca :: a') _ _ (by simp) ha.2 h5
      (headNot_rfl isDigitChar _ '/' rfl (by decide))
    have hca : isDigitChar ca = true := ha.2 ca (by simp)
    have h3 := (matchToks_opt_skip ' ' _ ca _ (digit_ne_space ca hca)).trans h4
    have h2 := (matchToks_lit1 '[' _ _).trans h3
    have h1 := (matchToks_lit1 ' ' _ _).trans h2
    have hpf2 := matchToks_plus_run isDigitChar _ f2 _ _ hf2.1 hf2.2 h1
      (headNot_rfl isDigitChar _ ' ' rfl (by decide))
    have hcls := (matchToks_cls_run (fun c => decide (c ≠ '\n')) _ '.' _ (by decide)).trans hpf2
    have hpf1 := matchToks_plus_run isDigitChar _ f1 _ _ hf1.1 hf1.2 hcls
      (headNot_rfl isDigitChar _ '.' rfl (by decide))
    have hlav := (matchToks_litToks " load avg: " _ _).trans hpf1
    have hp3 := matchToks_plus_run isDigitChar _ t3 _ _ ht3.1 ht3.2 hlav
      (headNot_rfl isDigitChar _ ' ' rfl (by decide))
    have hc2 := (matchToks_lit1 ':' _ _).trans hp3
    have hp2 := matchToks_plus_run isDigitChar _ t2 _ _ ht2.1 ht2.2 hc2
      (headNot_rfl isDigitChar _ ':' rfl (by decide))
    have hc1 := (matchToks_lit1 ':' _ _).trans hp2
    have hp1 := matchToks_plus_run isDigitChar _ t1 _ _ ht1.1 ht1.2 hc1
      (headNot_rfl isDigitChar _ ':' rfl (by decide))
    exact hp1
  · intro s line t h0 hm
    obtain ⟨l0, ir, ct⟩ := s
    have hir : ir = false := h0
    subst hir
    simp [scanStep, hm]
  · intro s line s' ev? h
    obtain ⟨l0, ir, ct⟩ := s
    cases ir with
    | true =>
      by_cases hs : line = SEPARATOR
      · subst hs
        cases hk : get_key l0 with
        | ok loc =>
          have hstep : scanStep ⟨l0, true, ct⟩ SEPARATOR =
              .ok (⟨[], false, ct⟩, some ⟨loc, joinNL l0, ct⟩) := by
            simp [scanStep, hk]
          rw [hstep] at h
          injection h with h2
          injection h2 with hA hB
          subst hA
          exact Or.inl rfl
        | error e =>
          have hstep : scanStep ⟨l0, true, ct⟩ SEPARATOR = .error e := by
            simp [scanStep, hk]
          rw [hstep] at h
          exact absurd h (by simp)
      · have hstep : scanStep ⟨l0, true, ct⟩ line = .ok (⟨l0 ++ [line], true, ct⟩, none) := by
          simp [scanStep, hs]
        rw [hstep] at h
        injection h with h2
        injection h2 with hA hB
        subst hA
        exact Or.inl rfl
    | false =>
      cases hm : testStatusMatch line with
      | some t =>
        have hstep : scanStep ⟨l0, false, ct⟩ line = .ok (⟨l0, false, some t⟩, none) := by
          simp [scanStep, hm]
        rw [hstep] at h
        injection h with h2
        injection h2 with hA hB
        subst hA
        exact Or.inr ⟨rfl, t, rfl, rfl⟩
      | none =>
        by_cases hs : line = SEPARATOR
        · subst hs
          rw [scan_open ⟨l0, false, ct⟩ rfl] at h
          injection h with h2
          injection h2 with hA hB
          subst hA
          exact Or.inl rfl
        · have hstep : scanStep ⟨l0, false, ct⟩ line = .ok (⟨l0, false, ct⟩, none) := by
            simp [scanStep, hm, hs]
          rw [hstep] at h
          injection h with h2
          injection h2 with hA hB
          subst hA
          exact Or.inl rfl
  · intro m e t ht
    refine ⟨applyEvent (findRace m e.key) e, by rw [findRace_ingest]; simp, ?_⟩
    unfold applyEvent
    rw [ht]
    dsimp only
    exact mem_addTest_self _ t
  · intro m e ht
    refine ⟨applyEvent (findRace m e.key) e, by rw [findRace_ingest]; simp, ?_⟩
    unfold applyEvent
    rw [ht]
    cases hf : findRace m e.key with
    | none => rfl
    | some r0 => rfl
  · intro s s' e hin h
    obtain ⟨l0, ir, ct⟩ := s
    have hir : ir = true := hin
    subst hir
    cases hk : get_key l0 with
    | ok loc =>
      have hstep : scanStep ⟨l0, true, ct⟩ SEPARATOR =
          .ok (⟨[], false, ct⟩, some ⟨loc, joinNL l0, ct⟩) := by
        simp [scanStep, hk]
      rw [hstep] at h
      injection h with h2
      injection h2 with hA hB
      subst hA
      injection hB with hC
      subst hC
      exact ⟨rfl, rfl⟩
    | error e' =>
      have hstep : scanStep ⟨l0, true, ct⟩ SEPARATOR = .error e' := by
        simp [scanStep, hk]
      rw [hstep] at h
      exact absurd h (by simp)

/-- Witness for claim C7: a concrete status line matches, the captured test
name is exactly the token, and the scan state is updated with it. -/
theorem claim_C7_witness :
    testStatusMatch "07:14:59 load avg: 3.14 [12/42] test_abc now" = some "test_abc" ∧
    scanStep initScan "07:14:59 load avg: 3.14 [12/42] test_abc now" =
      .ok ({ initScan with cur_test := some "test_abc" }, none) := by
  have h1 := claim_C7_test_status_line.1 ['0', '7'] ['1', '4'] ['5', '9'] ['3'] ['1', '4']
    ['1', '2'] ['4', '2'] ['a', 'b', 'c'] (' ' :: ['n', 'o', 'w'])
    (by decide) (by decide) (by decide) (by decide) (by decide) (by decide) (by decide)
    (by decide) (headNot_rfl isAlnumChar _ ' ' rfl (by decide))
  have h1' : testStatusMatch "07:14:59 load avg: 3.14 [12/42] test_abc now" =
      some "test_abc" := h1
  exact ⟨h1', claim_C7_test_status_line.2.1 initScan _ "test_abc" rfl h1'⟩

theorem aggregate_append (m : List (Option Location × Race)) (xs ys : List Event) :
    aggregate m (xs ++ ys) = aggregate (aggregate m xs) ys :=
  List.foldl_append _ _ _ _

theorem ingest_comm (m : List (Option Location × Race)) (e1 e2 : Event)
    (hkk : e1.key ≠ e2.key) (K : Option Location) :
    findRace (ingest (ingest m e1) e2) K = findRace (ingest (ingest m e2) e1) K := by
  have h21 : findRace (ingest m e1) e2.key = findRace m e2.key := by
    rw [findRace_ingest, if_neg hkk]
  have h12 : findRace (ingest m e2) e1.key = findRace m e1.key := by
    rw [findRace_ingest, if_neg (fun hc => hkk hc.symm)]
  by_cases h2 : e2.key = K
  · subst h2
    rw [findRace_ingest, if_pos rfl, h21, findRace_ingest, if_neg hkk,
      findRace_ingest, if_pos rfl]
  · rw [findRace_ingest, if_neg h2]
    by_cases h1 : e1.key = K
    · subst h1
      rw [findRace_ingest, if_pos rfl, findRace_ingest, if_pos rfl, h12]
    · rw [findRace_ingest, if_neg h1, findRace_ingest, if_neg h1,
        findRace_ingest, if_neg h2]

theorem aggregate_congr (evs : List Event) (m1 m2 : List (Option Location × Race))
    (h : ∀ K, findRace m1 K = findRace m2 K) :
    ∀ K, findRace (aggregate m1 evs) K = findRace (aggregate m2 evs) K := by
  induction evs generalizing m1 m2 with
  | nil => exact h
  | cons e rest ih =>
    rw [aggregate_cons, aggregate_cons]
    refine ih _ _ (fun K => ?_)
    rw [findRace_ingest, findRace_ingest, h e.key, h K]

theorem scanLines_prefix_ok (s s1 : ScanSt) (xs : List String) (evs1 : List Event)
    (h : scanLines s xs = .ok (s1, evs1)) (ys : List String) :
    scanLines s (xs ++ ys) =
      match scanLines s1 ys with
      | .error e => .error e
      | .ok (s2, evs2) => .ok (s2, evs1 ++ evs2) := by
  rw [scanLines_append, h]

/-- Counterexample to claim C8 as stated: swapping two non-overlapping race
blocks is not mapping-preserving in general, because test-status lines keep
their positions while block contents move, so the test attributed to each
record changes.  At this concrete input the record of the first key carries
test_a before the swap and test_b after it. -/
theorem claim_C8_counterexample :
    ∃ m1 m2,
      racesOf ["00:00:01 load avg: 0.50 [1/2] test_a", "==================",
        "    # f1 a.c:1:1 x", "==================",
        "00:00:02 load avg: 0.50 [2/2] test_b", "==================",
        "    # f2 b.c:2:2 x", "=================="] = .ok m1 ∧
      racesOf ["00:00:01 load avg: 0.50 [1/2] test_a", "==================",
        "    # f2 b.c:2:2 x", "==================",
        "00:00:02 load avg: 0.50 [2/2] test_b", "==================",
        "    # f1 a.c:1:1 x", "=================="] = .ok m2 ∧
      findRace m1 (some ⟨"f1", "a.c", 1⟩) ≠ findRace m2 (some ⟨"f1", "a.c", 1⟩) := by
  refine ⟨[(some ⟨"f1", "a.c", 1⟩,
      ⟨["test_a"], some ⟨"f1", "a.c", 1⟩, ["    # f1 a.c:1:1 x"]⟩),
     (some ⟨"f2", "b.c", 2⟩,
      ⟨["test_b"], some ⟨"f2", "b.c", 2⟩, ["    # f2 b.c:2:2 x"]⟩)],
    [(some ⟨"f2", "b.c", 2⟩,
      ⟨["test_a"], some ⟨"f2", "b.c", 2⟩, ["    # f2 b.c:2:2 x"]⟩),
     (some ⟨"f1", "a.c", 1⟩,
      ⟨["test_b"], some ⟨"f1", "a.c", 1⟩, ["    # f1 a.c:1:1 x"]⟩)],
    rfl, rfl, ?_⟩
  decide

/-- Claim C8 as amended: swapping two closed race blocks leaves the final
key-to-record mapping unchanged as a lookup function, provided the derived
keys of the two blocks differ and no separator or test-status line lies
between the two blocks, so the current test in force at both block
positions is the same. -/
theorem claim_C8_swap_independent_blocks (P M S body1 body2 : List String)
    (k1 k2 : Option Location) (s0 : PState)
    (hP : processLines initState P = .ok s0) (h0 : s0.in_race = false)
    (hb1 : ∀ l ∈ body1, l ≠ SEPARATOR) (hb2 : ∀ l ∈ body2, l ≠ SEPARATOR)
    (hM : ∀ l ∈ M, testStatusMatch l = none ∧ l ≠ SEPARATOR)
    (hk1 : get_key body1 = .ok k1) (hk2 : get_key body2 = .ok k2) (hkk : k1 ≠ k2)
    (m1 : List (Option Location × Race))
    (h1 : racesOf (P ++ ((SEPARATOR :: (body1 ++ [SEPARATOR])) ++
      (M ++ ((SEPARATOR :: (body2 ++ [SEPARATOR])) ++ S)))) = .ok m1) :
    ∃ m2, racesOf (P ++ ((SEPARATOR :: (body2 ++ [SEPARATOR])) ++
      (M ++ ((SEPARATOR :: (body1 ++ [SEPARATOR])) ++ S)))) = .ok m2 ∧
      ∀ K, findRace m2 K = findRace m1 K := by
  rw [processLines_scan_init P] at hP
  simp only [racesOf] at h1
  rw [processLines_scan_init, scanLines_append] at h1
  cases hscan : scanLines initScan P with
  | error e =>
    rw [hscan] at hP
    simp at hP
  | ok q =>
    obtain ⟨sc0, evs0⟩ := q
    rw [hscan] at hP
    rw [hscan] at h1
    injection hP with hP'
    subst hP'
    obtain ⟨l0, ir0, ct0⟩ := sc0
    have hir : ir0 = false := h0
    subst hir
    have hl0 : l0 = [] :=
      scanLines_lines_inv P initScan ⟨l0, false, ct0⟩ evs0 (fun _ => rfl) hscan rfl
    subst hl0
    have hB1 : scanLines (⟨[], false, ct0⟩ : ScanSt) (SEPARATOR :: (body1 ++ [SEPARATOR])) =
        .ok (⟨[], false, ct0⟩, [⟨k1, joinNL body1, ct0⟩]) :=
      scan_block ⟨[], false, ct0⟩ body1 k1 rfl rfl hb1 hk1
    have hB2 : scanLines (⟨[], false, ct0⟩ : ScanSt) (SEPARATOR :: (body2 ++ [SEPARATOR])) =
        .ok (⟨[], false, ct0⟩, [⟨k2, joinNL body2, ct0⟩]) :=
      scan_block ⟨[], false, ct0⟩ body2 k2 rfl rfl hb2 hk2
    have hMp : scanLines (⟨[], false, ct0⟩ : ScanSt) M = .ok (⟨[], false, ct0⟩, []) :=
      scan_plain M ⟨[], false, ct0⟩ rfl hM
    have hI1 : scanLines (⟨[], false, ct0⟩ : ScanSt)
        ((SEPARATOR :: (body1 ++ [SEPARATOR])) ++
          (M ++ ((SEPARATOR :: (body2 ++ [SEPARATOR])) ++ S))) =
        match scanLines (⟨[], false, ct0⟩ : ScanSt) S with
        | .error e => .error e
        | .ok (s2, evsS) =>
          .ok (s2, ⟨k1, joinNL body1, ct0⟩ :: ⟨k2, joinNL body2, ct0⟩ :: evsS) := by
      rw [scanLines_prefix_ok _ _ _ _ hB1, scanLines_prefix_ok _ _ _ _ hMp,
        scanLines_prefix_ok _ _ _ _ hB2]
      cases hS : scanLines (⟨[], false, ct0⟩ : ScanSt) S with
      | error e => rfl
      | ok q2 => obtain ⟨s2, evsS⟩ := q2; rfl
    have hI2 : scanLines (⟨[], false, ct0⟩ : ScanSt)
        ((SEPARATOR :: (body2 ++ [SEPARATOR])) ++
          (M ++ ((SEPARATOR :: (body1 ++ [SEPARATOR])) ++ S))) =
        match scanLines (⟨[], false, ct0⟩ : ScanSt) S with
        | .error e => .error e
        | .ok (s2, evsS) =>
          .ok (s2, ⟨k2, joinNL body2, ct0⟩ :: ⟨k1, joinNL body1, ct0⟩ :: evsS) := by
      rw [scanLines_prefix_ok _ _ _ _ hB2, scanLines_prefix_ok _ _ _ _ hMp,
        scanLines_prefix_ok _ _ _ _ hB1]
      cases hS : scanLines (⟨[], false, ct0⟩ : ScanSt) S with
      | error e => rfl
      | ok q2 => obtain ⟨s2, evsS⟩ := q2; rfl
    dsimp only at h1
    rw [hI1] at h1
    cases hS : scanLines (⟨[], false, ct0⟩ : ScanSt) S with
    | error e =>
      rw [hS] at h1
      simp [Except.map] at h1
    | ok q2 =>
      obtain ⟨s2, evsS⟩ := q2
      rw [hS] at h1
      simp only [Except.map, Except.ok.injEq] at h1
      have h2run : racesOf (P ++ ((SEPARATOR :: (body2 ++ [SEPARATOR])) ++
          (M ++ ((SEPARATOR :: (body1 ++ [SEPARATOR])) ++ S)))) =
          .ok (aggregate []
            (evs0 ++ (⟨k2, joinNL body2, ct0⟩ :: ⟨k1, joinNL body1, ct0⟩ :: evsS))) := by
        simp only [racesOf]
        rw [processLines_scan_init, scanLines_append, hscan]
        dsimp only
        rw [hI2, hS]
        rfl
      refine ⟨_, h2run, fun K => ?_⟩
      rw [← h1]
      rw [aggregate_append, aggregate_append, aggregate_cons, aggregate_cons,
        aggregate_cons, aggregate_cons]
      exact aggregate_congr evsS _ _
        (fun K' => ingest_comm (aggregate [] evs0) _ _ (fun hc => hkk hc.symm) K') K

/-- Witness for the amended claim C8 at two concrete adjacent blocks with
distinct keys. -/
theorem claim_C8_witness :
    ∃ m2, racesOf ([] ++ ((SEPARATOR :: (["    # f2 b.c:2:2 x"] ++ [SEPARATOR])) ++
      ([] ++ ((SEPARATOR :: (["    # f1 a.c:1:1 x"] ++ [SEPARATOR])) ++ [])))) = .ok m2 ∧
      ∀ K, findRace m2 K = findRace
        [(some ⟨"f1", "a.c", 1⟩,
          ⟨[], some ⟨"f1", "a.c", 1⟩, ["    # f1 a.c:1:1 x"]⟩),
         (some ⟨"f2", "b.c", 2⟩,
          ⟨[], some ⟨"f2", "b.c", 2⟩, ["    # f2 b.c:2:2 x"]⟩)] K :=
  claim_C8_swap_independent_blocks [] [] [] ["    # f1 a.c:1:1 x"] ["    # f2 b.c:2:2 x"]
    (some ⟨"f1", "a.c", 1⟩) (some ⟨"f2", "b.c", 2⟩) initState rfl rfl
    (by decide) (by decide) (by decide) rfl rfl (by decide)
    [(some ⟨"f1", "a.c", 1⟩, ⟨[], some ⟨"f1", "a.c", 1⟩, ["    # f1 a.c:1:1 x"]⟩),
     (some ⟨"f2", "b.c", 2⟩, ⟨[], some ⟨"f2", "b.c", 2⟩, ["    # f2 b.c:2:2 x"]⟩)] rfl

end GroupTsanRaces
